import Mathlib

/-!
Verification of the Cloud-Nexus native core against its specification.

The Rust sources under `src/native/src/` are shallowly embedded below:
pure functions become Lean functions on `List Nat` byte sequences
(machine integers are modelled as `Nat` with explicit `% 2^32` where the
source truncates), stateful code becomes explicit state passing, and
fallible code returns `Option` or an error code (`Int`).  The external
`aes_gcm` crate is an out-of-scope collaborator; it is modelled by an
abstract `Aead` structure carrying the two properties every AEAD cipher
provides (ciphertext length = plaintext length + 16-byte tag, and
decryption inverting encryption), together with one concrete executable
instance used to evaluate theorems on concrete inputs.  Randomness
(`OsRng.fill_bytes`) is modelled by passing the drawn bytes explicitly,
so theorems quantify over every possible draw.
-/

namespace CloudNexus

/-! ## Byte-level helpers (little-endian u32, from `u32::to_le_bytes` /
`u32::from_le_bytes` usage in `lib.rs`) -/

/-- Little-endian byte encoding of a `u32` value (`n.to_le_bytes()`); the
`% 2 ^ 32` models the `as u32` truncating cast at call sites. -/
def leBytes32 (n : Nat) : List Nat :=
  [n % 256, n / 256 % 256, n / 65536 % 256, n / 16777216 % 256]

/-- Reads a `u32` from four little-endian bytes (`u32::from_le_bytes`). -/
def decodeLe32 (bs : List Nat) : Nat :=
  match bs with
  | [b0, b1, b2, b3] => b0 + 256 * b1 + 65536 * b2 + 16777216 * b3
  | _ => 0

theorem decodeLe32_leBytes32 (n : Nat) (h : n < 4294967296) :
    decodeLe32 (leBytes32 n) = n := by
  simp only [leBytes32, decodeLe32]
  omega

theorem leBytes32_length (n : Nat) : (leBytes32 n).length = 4 := rfl

/-! ## Abstract AEAD cipher (external `aes_gcm` crate interface)

`enc key nonce plain` returns ciphertext-with-tag; `dec` inverts it.
AES-256-GCM appends a 16-byte tag, giving the two laws below. -/

structure Aead where
  enc : List Nat → List Nat → List Nat → List Nat
  dec : List Nat → List Nat → List Nat → Option (List Nat)
  enc_length : ∀ k n p, (enc k n p).length = p.length + 16
  dec_enc : ∀ k n p, dec k n (enc k n p) = some p

/-- Concrete executable AEAD instance used for evaluating theorems at
concrete inputs: the tag is 16 copies of a checksum over key, nonce and
body, and decryption verifies it. -/
def mockTag (k n p : List Nat) : List Nat :=
  List.replicate 16 ((k.sum + n.sum + p.sum) % 256)

def mockAead : Aead where
  enc := fun k n p => p ++ mockTag k n p
  dec := fun k n c =>
    if c.length < 16 then none
    else if c.drop (c.length - 16) = mockTag k n (c.take (c.length - 16)) then
      some (c.take (c.length - 16))
    else none
  enc_length := by intro k n p; simp [mockTag]
  dec_enc := by
    intro k n p
    have hlen : (p ++ mockTag k n p).length = p.length + 16 := by simp [mockTag]
    simp only [hlen, Nat.add_sub_cancel, List.take_left, List.drop_left]
    simp

/-! ## Container format (`lib.rs`: constants, `build_header`, `parse_header`,
`wrap_key`, `unwrap_key`) -/

def MAGIC : Nat := 0x434E4552
def VERSION : Nat := 1
def NONCE_SIZE : Nat := 12
def MAC_SIZE : Nat := 16
def KEY_SIZE : Nat := 32
def HEADER_SIZE : Nat := 12
def DEFAULT_CHUNK_SIZE : Nat := 1024 * 1024

/-- `build_header` (`lib.rs:493`): magic (4 LE) + version + 3 reserved
zero bytes + wrapped-FEK length (4 LE). -/
def build_header (fekLength : Nat) : List Nat :=
  leBytes32 MAGIC ++ [VERSION, 0, 0, 0] ++ leBytes32 fekLength

/-- `parse_header` (`lib.rs:510`): returns (magic, version, fek_length);
fails when fewer than 12 bytes are given. -/
def parse_header (header : List Nat) : Option (Nat × Nat × Nat) :=
  if header.length < HEADER_SIZE then none
  else some (decodeLe32 (header.take 4), header.getD 4 0,
             decodeLe32 ((header.drop 8).take 4))

/-- `wrap_key` (`lib.rs:464`): fresh 12-byte nonce (passed explicitly)
followed by the AEAD encryption of the key under the master key. -/
def wrap_key (A : Aead) (nonce key masterKey : List Nat) : List Nat :=
  nonce ++ A.enc masterKey nonce key

/-- `unwrap_key` (`lib.rs:481`): rejects inputs shorter than
nonce + tag (28 bytes), then AEAD-decrypts. -/
def unwrap_key (A : Aead) (wrappedKey masterKey : List Nat) : Option (List Nat) :=
  if wrappedKey.length < NONCE_SIZE + MAC_SIZE then none
  else A.dec masterKey (wrappedKey.take NONCE_SIZE) (wrappedKey.drop NONCE_SIZE)

/-! ## Chunk frames (`encrypt_chunk_impl` / `decrypt_chunk_impl`,
`lib.rs:793-859` = `encryption.rs:108-172`) -/

/-- `encrypt_chunk_impl`: frame = index (4 LE) + ciphertext size (4 LE)
+ nonce (12) + ciphertext-with-tag.  The nonce draw is explicit. -/
def encrypt_chunk_impl (A : Aead) (nonce data fek : List Nat) (chunkIndex : Nat) :
    List Nat :=
  let ciphertext := A.enc fek nonce data
  leBytes32 chunkIndex ++ leBytes32 ciphertext.length ++ nonce ++ ciphertext

/-- `decrypt_chunk_impl`: requires at least the 20-byte frame header,
reads index and size fields (both unused: `_chunk_index`, `_chunk_size`
in the source), takes the nonce from bytes 8..20, requires at least a
16-byte tag after the header, and AEAD-decrypts everything after byte 20.
Returns the plaintext and the consumed frame length. -/
def decrypt_chunk_impl (A : Aead) (encryptedData fek : List Nat) :
    Option (List Nat × Nat) :=
  if encryptedData.length < 20 then none
  else
    let nonceBytes := (encryptedData.drop 8).take 12
    let encryptedContent := encryptedData.drop 20
    if encryptedContent.length < MAC_SIZE then none
    else
      match A.dec fek nonceBytes encryptedContent with
      | none => none
      | some plaintext => some (plaintext, 20 + encryptedContent.length)

/-! ## Whole-file streaming encryption (`encrypt_file_streaming`,
`lib.rs:563`) -/

/-- Splits a list into chunks of `c` elements (the `while offset < file_len`
loop); `fuel` bounds recursion and is sufficient at `l.length`. -/
def chunksOf (c : Nat) : Nat → List α → List (List α)
  | 0, _ => []
  | fuel + 1, l => if l.isEmpty then [] else l.take c :: chunksOf c fuel (l.drop c)

/-- Builds the concatenated chunk frames with incrementing indexes,
drawing nonce `i` for chunk `i`. -/
def encryptChunks (A : Aead) (fek : List Nat) (nonces : Nat → List Nat) :
    Nat → List (List Nat) → List Nat
  | _, [] => []
  | i, piece :: rest =>
      encrypt_chunk_impl A (nonces i) piece fek i ++ encryptChunks A fek nonces (i + 1) rest

/-- `encrypt_file_streaming` (`lib.rs:563`): header + wrapped FEK +
frames of the 1 MiB plaintext chunks.  The random FEK and the wrap / chunk
nonces are passed explicitly.  Returns `none` when the master key is not
32 bytes (the source returns null). -/
def encrypt_file_streaming (A : Aead) (fek wrapNonce : List Nat)
    (nonces : Nat → List Nat) (fileData masterKey : List Nat) : Option (List Nat) :=
  if masterKey.length ≠ KEY_SIZE then none
  else
    let wrappedFek := wrap_key A wrapNonce fek masterKey
    let mainHeader := build_header wrappedFek.length
    let pieces := chunksOf DEFAULT_CHUNK_SIZE fileData.length fileData
    some (mainHeader ++ wrappedFek ++ encryptChunks A fek nonces 0 pieces)

/-- The chunk-decryption loop of `decrypt_file_streaming` (`lib.rs:728-764`):
while data remains, require a 20-byte frame header, read the size field,
require the whole frame to be present, decrypt it and advance. -/
def decryptChunks (A : Aead) (fek : List Nat) : Nat → List Nat → Option (List Nat)
  | 0, rest => if rest.isEmpty then some [] else none
  | fuel + 1, rest =>
      if rest.isEmpty then some []
      else if rest.length < 20 then none
      else
        let chunkSize := decodeLe32 ((rest.drop 4).take 4)
        if rest.length < 20 + chunkSize then none
        else
          match decrypt_chunk_impl A (rest.take (20 + chunkSize)) fek with
          | none => none
          | some (plaintext, _) =>
              (decryptChunks A fek fuel (rest.drop (20 + chunkSize))).map
                (fun tail => plaintext ++ tail)

/-- `decrypt_file_streaming` (`lib.rs:673`): parse and validate the main
header, unwrap the FEK, then decrypt the chunk frames in order. -/
def decrypt_file_streaming (A : Aead) (encryptedData masterKey : List Nat) :
    Option (List Nat) :=
  if masterKey.length ≠ KEY_SIZE then none
  else if encryptedData.length < HEADER_SIZE then none
  else
    match parse_header (encryptedData.take HEADER_SIZE) with
    | none => none
    | some (magic, version, fekLength) =>
        if ¬(magic = MAGIC ∧ version = VERSION) then none
        else if encryptedData.length < HEADER_SIZE + fekLength then none
        else
          let wrappedFek := (encryptedData.drop HEADER_SIZE).take fekLength
          match unwrap_key A wrappedFek masterKey with
          | none => none
          | some fek =>
              decryptChunks A fek encryptedData.length
                (encryptedData.drop (HEADER_SIZE + fekLength))

/-! ## Round-trip lemmas for the streaming container (claim C1) -/

theorem chunksOf_flatten {α : Type} (c : Nat) :
    ∀ (fuel : Nat) (l : List α), 0 < c → l.length ≤ fuel →
      (chunksOf c fuel l).flatten = l := by
  intro fuel
  induction fuel with
  | zero =>
      intro l _ hl
      have : l = [] := List.length_eq_zero.mp (Nat.le_zero.mp hl)
      simp [chunksOf, this]
  | succ f ih =>
      intro l hc hl
      rw [chunksOf]
      by_cases h : l.isEmpty = true
      · rw [List.isEmpty_iff] at h
        simp [h]
      · have hne : l ≠ [] := by
          intro hcontra; rw [List.isEmpty_iff] at h; exact h hcontra
        have hpos : 0 < l.length := List.length_pos.mpr hne
        rw [if_neg h]
        rw [List.flatten_cons, ih (l.drop c) hc (by simp; omega)]
        exact List.take_append_drop c l

theorem chunksOf_length_le {α : Type} (c : Nat) :
    ∀ (fuel : Nat) (l : List α), (chunksOf c fuel l).length ≤ fuel := by
  intro fuel
  induction fuel with
  | zero => intro l; simp [chunksOf]
  | succ f ih =>
      intro l
      rw [chunksOf]
      by_cases h : l.isEmpty = true
      · simp [h]
      · rw [if_neg h]
        simp only [List.length_cons]
        exact Nat.succ_le_succ (ih (l.drop c))

theorem chunksOf_mem_length {α : Type} (c : Nat) :
    ∀ (fuel : Nat) (l p : List α), p ∈ chunksOf c fuel l → p.length ≤ c := by
  intro fuel
  induction fuel with
  | zero => intro l p hp; simp [chunksOf] at hp
  | succ f ih =>
      intro l p hp
      rw [chunksOf] at hp
      by_cases h : l.isEmpty = true
      · rw [if_pos h] at hp; simp at hp
      · rw [if_neg h] at hp
        rcases List.mem_cons.mp hp with hp1 | hp1
        · subst hp1; exact List.length_take_le c l
        · exact ih (l.drop c) p hp1

theorem encrypt_chunk_impl_length (A : Aead) (nonce data fek : List Nat) (i : Nat)
    (hn : nonce.length = 12) :
    (encrypt_chunk_impl A nonce data fek i).length = 20 + (data.length + 16) := by
  simp [encrypt_chunk_impl, leBytes32, hn, A.enc_length]
  omega

/-- Decrypting a frame produced by `encrypt_chunk_impl` recovers the chunk
plaintext together with the frame length. -/
theorem decrypt_chunk_impl_encrypt (A : Aead) (nonce data fek : List Nat) (i : Nat)
    (hn : nonce.length = 12) :
    decrypt_chunk_impl A (encrypt_chunk_impl A nonce data fek i) fek
      = some (data, 20 + (data.length + 16)) := by
  have hct : (A.enc fek nonce data).length = data.length + 16 := A.enc_length _ _ _
  have hframe : encrypt_chunk_impl A nonce data fek i
      = (leBytes32 i ++ leBytes32 (A.enc fek nonce data).length) ++
        (nonce ++ A.enc fek nonce data) := by
    simp [encrypt_chunk_impl]
  have hlen : (encrypt_chunk_impl A nonce data fek i).length = 20 + (data.length + 16) :=
    encrypt_chunk_impl_length A nonce data fek i hn
  rw [decrypt_chunk_impl, if_neg (by omega)]
  have hdrop8 : (encrypt_chunk_impl A nonce data fek i).drop 8
      = nonce ++ A.enc fek nonce data := by
    rw [hframe]
    exact List.drop_left' (by simp [leBytes32])
  have hnonce : ((encrypt_chunk_impl A nonce data fek i).drop 8).take 12 = nonce := by
    rw [hdrop8]
    exact List.take_left' hn
  have hframe20 : encrypt_chunk_impl A nonce data fek i
      = ((leBytes32 i ++ leBytes32 (A.enc fek nonce data).length) ++ nonce) ++
        A.enc fek nonce data := by
    rw [hframe]; simp
  have hdrop20 : (encrypt_chunk_impl A nonce data fek i).drop 20 = A.enc fek nonce data := by
    rw [hframe20]
    exact List.drop_left' (by simp [leBytes32, hn])
  rw [if_neg (by rw [hdrop20, hct]; unfold MAC_SIZE; omega)]
  rw [hnonce, hdrop20, A.dec_enc, hct]

theorem encryptChunks_length_ge (A : Aead) (fek : List Nat) (nonces : Nat → List Nat) :
    ∀ (pieces : List (List Nat)) (i : Nat),
      pieces.length ≤ (encryptChunks A fek nonces i pieces).length := by
  intro pieces
  induction pieces with
  | nil => intro i; simp [encryptChunks]
  | cons p ps ih =>
      intro i
      simp only [encryptChunks, List.length_append, List.length_cons]
      have h20 : 20 + (p.length + 16) = (encrypt_chunk_impl A (nonces i) p fek i).length
          + 0 ∨ True := Or.inr trivial
      have hfl : 1 ≤ (encrypt_chunk_impl A (nonces i) p fek i).length := by
        simp [encrypt_chunk_impl, leBytes32]
      have := ih (i + 1)
      omega

/-- The chunk-decryption loop inverts the chunk-encryption loop. -/
theorem decryptChunks_encryptChunks (A : Aead) (fek : List Nat) (nonces : Nat → List Nat)
    (hn : ∀ i, (nonces i).length = 12) :
    ∀ (pieces : List (List Nat)) (i fuel : Nat),
      (∀ p ∈ pieces, p.length + 16 < 4294967296) →
      pieces.length ≤ fuel →
      decryptChunks A fek fuel (encryptChunks A fek nonces i pieces)
        = some pieces.flatten := by
  intro pieces
  induction pieces with
  | nil =>
      intro i fuel _ _
      cases fuel <;> simp [encryptChunks, decryptChunks]
  | cons p ps ih =>
      intro i fuel hp hfuel
      cases fuel with
      | zero => simp at hfuel
      | succ f =>
          have hct : (A.enc fek (nonces i) p).length = p.length + 16 := A.enc_length _ _ _
          have hsize : p.length + 16 < 4294967296 := hp p (List.mem_cons_self p ps)
          have hframe_len : (encrypt_chunk_impl A (nonces i) p fek i).length
              = 20 + (p.length + 16) := encrypt_chunk_impl_length A (nonces i) p fek i (hn i)
          simp only [encryptChunks]
          set frame := encrypt_chunk_impl A (nonces i) p fek i with hframe_def
          set rest := encryptChunks A fek nonces (i + 1) ps with hrest_def
          have hne : frame ++ rest ≠ [] := by
            intro hcontra
            have : (frame ++ rest).length = 0 := by rw [hcontra]; rfl
            simp [hframe_len] at this
          rw [decryptChunks]
          rw [if_neg (by simpa [List.isEmpty_iff] using hne)]
          rw [if_neg (by simp [hframe_len]; omega)]
          have hsz : decodeLe32 (((frame ++ rest).drop 4).take 4) = p.length + 16 := by
            have hframe4 : frame ++ rest
                = leBytes32 i ++ (leBytes32 (A.enc fek (nonces i) p).length ++
                    ((nonces i) ++ (A.enc fek (nonces i) p ++ rest))) := by
              rw [hframe_def]; simp [encrypt_chunk_impl]
            rw [hframe4, List.drop_left' (by simp [leBytes32]),
                List.take_left' (by simp [leBytes32])]
            rw [hct]
            exact decodeLe32_leBytes32 _ hsize
          rw [hsz]
          rw [if_neg (by simp [hframe_len])]
          have htake : (frame ++ rest).take (20 + (p.length + 16)) = frame :=
            List.take_left' hframe_len
          have hdrop : (frame ++ rest).drop (20 + (p.length + 16)) = rest :=
            List.drop_left' hframe_len
          rw [htake, hdrop, hframe_def, decrypt_chunk_impl_encrypt A (nonces i) p fek i (hn i)]
          rw [ih (i + 1) f (fun q hq => hp q (List.mem_cons_of_mem p hq)) (by simpa using hfuel)]
          simp

theorem build_header_length (L : Nat) : (build_header L).length = 12 := by
  simp [build_header, leBytes32]

theorem parse_build_header (L : Nat) (hL : L < 4294967296) :
    parse_header (build_header L) = some (MAGIC, VERSION, L) := by
  have h12 : (build_header L).length = 12 := build_header_length L
  rw [parse_header, if_neg (by rw [h12]; unfold HEADER_SIZE; omega)]
  have hassoc : build_header L = leBytes32 MAGIC ++ ([VERSION, 0, 0, 0] ++ leBytes32 L) := by
    rw [build_header, List.append_assoc]
  have htake : (build_header L).take 4 = leBytes32 MAGIC := by
    rw [hassoc]
    exact List.take_left' (by simp [leBytes32])
  have hget : (build_header L).getD 4 0 = VERSION := by
    rw [build_header]; rfl
  have hdrop : (build_header L).drop 8 = leBytes32 L := by
    rw [build_header]
    exact List.drop_left' (by simp [leBytes32])
  rw [htake, hget, hdrop]
  rw [decodeLe32_leBytes32 MAGIC (by decide)]
  rw [List.take_of_length_le (by simp [leBytes32]), decodeLe32_leBytes32 L hL]

theorem wrap_key_length (A : Aead) (nonce key masterKey : List Nat) :
    (wrap_key A nonce key masterKey).length = nonce.length + (key.length + 16) := by
  simp [wrap_key, A.enc_length]

/-- Claim C1: for every plaintext byte sequence, every 32-byte master key,
and every possible draw of the random FEK, wrap nonce and chunk nonces,
whole-file streaming decryption inverts whole-file streaming encryption
under the same key. -/
theorem encrypt_decrypt_file_streaming_roundtrip (A : Aead)
    (fek wrapNonce masterKey plain : List Nat) (nonces : Nat → List Nat)
    (hf : fek.length = 32) (hw : wrapNonce.length = 12) (hm : masterKey.length = 32)
    (hn : ∀ i, (nonces i).length = 12) :
    (encrypt_file_streaming A fek wrapNonce nonces plain masterKey).bind
      (fun c => decrypt_file_streaming A c masterKey) = some plain := by
  set w := wrap_key A wrapNonce fek masterKey with hw_def
  set pieces := chunksOf DEFAULT_CHUNK_SIZE plain.length plain with hpieces_def
  set body := encryptChunks A fek nonces 0 pieces with hbody_def
  have hwlen : w.length = 60 := by rw [hw_def, wrap_key_length, hw, hf]
  have henc : encrypt_file_streaming A fek wrapNonce nonces plain masterKey
      = some (build_header w.length ++ w ++ body) := by
    rw [encrypt_file_streaming, if_neg (by simp [KEY_SIZE, hm])]
  rw [henc, Option.some_bind]
  set out := build_header w.length ++ w ++ body with hout_def
  have hhdr : (build_header w.length).length = 12 := build_header_length _
  have hout_eq : out = build_header w.length ++ (w ++ body) := by
    rw [hout_def, List.append_assoc]
  have houtlen : out.length = 72 + body.length := by
    rw [hout_def]
    simp only [List.length_append, hhdr]
    omega
  rw [decrypt_file_streaming]
  rw [if_neg (by simp [KEY_SIZE, hm])]
  rw [if_neg (by rw [houtlen]; unfold HEADER_SIZE; omega)]
  have htake12 : out.take HEADER_SIZE = build_header w.length := by
    rw [hout_eq]
    exact List.take_left' (by rw [hhdr]; rfl)
  rw [htake12, parse_build_header w.length (by omega)]
  dsimp only
  rw [if_neg (by simp)]
  rw [if_neg (by rw [houtlen]; unfold HEADER_SIZE; omega)]
  have hdrop12 : out.drop HEADER_SIZE = w ++ body := by
    rw [hout_eq]
    exact List.drop_left' (by rw [hhdr]; rfl)
  have hwfek : (out.drop HEADER_SIZE).take w.length = w := by
    rw [hdrop12]
    exact List.take_left w body
  rw [hwfek]
  have hunwrap : unwrap_key A w masterKey = some fek := by
    rw [unwrap_key,
        if_neg (by rw [hwlen]; unfold NONCE_SIZE MAC_SIZE; omega)]
    rw [hw_def, wrap_key]
    rw [List.take_left' (by rw [hw]; rfl), List.drop_left' (by rw [hw]; rfl)]
    exact A.dec_enc masterKey wrapNonce fek
  rw [hunwrap]
  have hdrop72 : out.drop (HEADER_SIZE + w.length) = body := by
    rw [hout_def]
    exact List.drop_left' (by simp only [List.length_append, hhdr]; rfl)
  rw [hdrop72]
  have hfuel : pieces.length ≤ out.length := by
    have h1 : pieces.length ≤ body.length := by
      rw [hbody_def]
      exact encryptChunks_length_ge A fek nonces pieces 0
    omega
  have hp : ∀ p ∈ pieces, p.length + 16 < 4294967296 := by
    intro p hpmem
    rw [hpieces_def] at hpmem
    have := chunksOf_mem_length DEFAULT_CHUNK_SIZE plain.length plain p hpmem
    have hc : DEFAULT_CHUNK_SIZE = 1048576 := rfl
    omega
  dsimp only
  rw [decryptChunks_encryptChunks A fek nonces hn pieces 0 out.length hp hfuel]
  rw [hpieces_def,
      chunksOf_flatten DEFAULT_CHUNK_SIZE plain.length plain (by decide) le_rfl]

/-- Witness for C1 at a concrete input: a 3-byte file under the all-zero
master key round-trips through the concrete AEAD instance. -/
theorem encrypt_decrypt_file_streaming_roundtrip_witness :
    (encrypt_file_streaming mockAead (List.replicate 32 0) (List.replicate 12 0)
        (fun _ => List.replicate 12 0) [1, 2, 3] (List.replicate 32 0)).bind
      (fun c => decrypt_file_streaming mockAead c (List.replicate 32 0))
      = some [1, 2, 3] :=
  encrypt_decrypt_file_streaming_roundtrip mockAead (List.replicate 32 0)
    (List.replicate 12 0) (List.replicate 32 0) [1, 2, 3] (fun _ => List.replicate 12 0)
    (by decide) (by decide) (by decide) (fun _ => rfl)

/-! ## Claim C5: header layout of every produced file -/

/-- Claim C5: every output of `encrypt_file_streaming` begins with a
12-byte header whose first four little-endian bytes equal `0x434E4552`,
whose fifth byte equals 1, whose bytes 5-7 are zero, and whose 32-bit
little-endian value at offset 8 equals the byte length of the wrapped FEK
that immediately follows the header. -/
theorem encrypt_file_streaming_header_format (A : Aead)
    (fek wrapNonce masterKey plain : List Nat) (nonces : Nat → List Nat) (out : List Nat)
    (hf : fek.length = 32) (hw : wrapNonce.length = 12) (hm : masterKey.length = 32)
    (henc : encrypt_file_streaming A fek wrapNonce nonces plain masterKey = some out) :
    decodeLe32 (out.take 4) = 0x434E4552 ∧ out.getD 4 0 = 1 ∧
    (out.drop 5).take 3 = [0, 0, 0] ∧
    decodeLe32 ((out.drop 8).take 4) = (wrap_key A wrapNonce fek masterKey).length ∧
    (out.drop HEADER_SIZE).take (wrap_key A wrapNonce fek masterKey).length
      = wrap_key A wrapNonce fek masterKey := by
  rw [encrypt_file_streaming, if_neg (by simp [KEY_SIZE, hm])] at henc
  set w := wrap_key A wrapNonce fek masterKey with hw_def
  set body := encryptChunks A fek nonces 0 (chunksOf DEFAULT_CHUNK_SIZE plain.length plain)
    with hbody_def
  have hwlen : w.length = 60 := by rw [hw_def, wrap_key_length, hw, hf]
  have hinj : build_header w.length ++ w ++ body = out := Option.some.inj henc
  have hout : out = [82, 69, 78, 67, 1, 0, 0, 0] ++ (leBytes32 w.length ++ (w ++ body)) := by
    rw [← hinj]; rfl
  refine ⟨?_, ?_, ?_, ?_, ?_⟩
  · rw [hout]; rfl
  · rw [hout]; rfl
  · rw [hout]; rfl
  · rw [hout]
    show decodeLe32 (leBytes32 w.length) = w.length
    exact decodeLe32_leBytes32 _ (by omega)
  · rw [hout]
    show (w ++ body).take w.length = w
    exact List.take_left w body

/-- Witness for C5 at a concrete input. -/
theorem encrypt_file_streaming_header_format_witness :
    decodeLe32 ((Option.getD (encrypt_file_streaming mockAead (List.replicate 32 0)
        (List.replicate 12 0) (fun _ => List.replicate 12 0) [1, 2, 3]
        (List.replicate 32 0)) []).take 4) = 0x434E4552 ∧
    (Option.getD (encrypt_file_streaming mockAead (List.replicate 32 0)
        (List.replicate 12 0) (fun _ => List.replicate 12 0) [1, 2, 3]
        (List.replicate 32 0)) []).getD 4 0 = 1 ∧
    ((Option.getD (encrypt_file_streaming mockAead (List.replicate 32 0)
        (List.replicate 12 0) (fun _ => List.replicate 12 0) [1, 2, 3]
        (List.replicate 32 0)) []).drop 5).take 3 = [0, 0, 0] ∧
    decodeLe32 (((Option.getD (encrypt_file_streaming mockAead (List.replicate 32 0)
        (List.replicate 12 0) (fun _ => List.replicate 12 0) [1, 2, 3]
        (List.replicate 32 0)) []).drop 8).take 4)
      = (wrap_key mockAead (List.replicate 12 0) (List.replicate 32 0)
          (List.replicate 32 0)).length ∧
    ((Option.getD (encrypt_file_streaming mockAead (List.replicate 32 0)
        (List.replicate 12 0) (fun _ => List.replicate 12 0) [1, 2, 3]
        (List.replicate 32 0)) []).drop HEADER_SIZE).take
        (wrap_key mockAead (List.replicate 12 0) (List.replicate 32 0)
          (List.replicate 32 0)).length
      = wrap_key mockAead (List.replicate 12 0) (List.replicate 32 0)
          (List.replicate 32 0) :=
  encrypt_file_streaming_header_format mockAead (List.replicate 32 0)
    (List.replicate 12 0) (List.replicate 32 0) [1, 2, 3]
    (fun _ => List.replicate 12 0) _ (by decide) (by decide) (by decide) rfl

/-! ## Claim C2: the payload-length field of a chunk frame -/

def c2Fek : List Nat := List.replicate 32 0
def c2Nonce : List Nat := List.replicate 12 0

/-- A frame whose payload-length field says 999 but which actually carries
19 content bytes (a 3-byte plaintext plus 16-byte tag). -/
def c2Frame : List Nat :=
  leBytes32 0 ++ leBytes32 999 ++ c2Nonce ++ mockAead.enc c2Fek c2Nonce [1, 2, 3]

/-- Counterexample to C2 as stated: this 39-byte frame has a length field
`P = 999`, so `39 ≠ 20 + P`, yet `decrypt_chunk_impl` does not reject it —
AEAD decryption is attempted and succeeds. -/
theorem decrypt_chunk_impl_length_mismatch_not_rejected :
    c2Frame.length = 39 ∧ decodeLe32 ((c2Frame.drop 4).take 4) = 999 ∧
    c2Frame.length ≠ 20 + 999 ∧
    decrypt_chunk_impl mockAead c2Frame c2Fek = some ([1, 2, 3], 39) := by
  decide

/-- C2 amended: chunk decryption reads the 20-byte frame header but never
compares the frame length against `20 + P`; the result is entirely
independent of the payload-length field bytes.  The only checks made
before AEAD decryption are that the frame is at least 20 bytes long and
carries at least 16 bytes (one tag) after the header; decryption is then
run on every byte after offset 20. -/
theorem decrypt_chunk_impl_ignores_size_field (A : Aead)
    (fek idxBytes sizeBytes nonce content : List Nat)
    (hidx : idxBytes.length = 4) (hsize : sizeBytes.length = 4)
    (hn : nonce.length = 12) (hc : 16 ≤ content.length) :
    decrypt_chunk_impl A (idxBytes ++ sizeBytes ++ nonce ++ content) fek
      = (A.dec fek nonce content).map (fun pt => (pt, 20 + content.length)) := by
  have hlen : (idxBytes ++ sizeBytes ++ nonce ++ content).length = 20 + content.length := by
    simp [hidx, hsize, hn]
    omega
  rw [decrypt_chunk_impl, if_neg (by omega)]
  have hdrop8 : (idxBytes ++ sizeBytes ++ nonce ++ content).drop 8 = nonce ++ content := by
    have he : idxBytes ++ sizeBytes ++ nonce ++ content
        = (idxBytes ++ sizeBytes) ++ (nonce ++ content) := by simp
    rw [he]
    exact List.drop_left' (by simp [hidx, hsize])
  have hdrop20 : (idxBytes ++ sizeBytes ++ nonce ++ content).drop 20 = content := by
    have he : idxBytes ++ sizeBytes ++ nonce ++ content
        = ((idxBytes ++ sizeBytes) ++ nonce) ++ content := by simp
    rw [he]
    exact List.drop_left' (by simp [hidx, hsize, hn])
  rw [if_neg (by rw [hdrop20]; unfold MAC_SIZE; omega)]
  rw [hdrop8, List.take_left' hn, hdrop20]
  cases A.dec fek nonce content <;> rfl

/-- Witness for the amended C2 theorem at a concrete input. -/
theorem decrypt_chunk_impl_ignores_size_field_witness :
    decrypt_chunk_impl mockAead
        (leBytes32 0 ++ leBytes32 999 ++ c2Nonce ++ mockAead.enc c2Fek c2Nonce [1, 2, 3])
        c2Fek
      = (mockAead.dec c2Fek c2Nonce (mockAead.enc c2Fek c2Nonce [1, 2, 3])).map
          (fun pt => (pt, 20 + (mockAead.enc c2Fek c2Nonce [1, 2, 3]).length)) :=
  decrypt_chunk_impl_ignores_size_field mockAead c2Fek (leBytes32 0) (leBytes32 999)
    c2Nonce (mockAead.enc c2Fek c2Nonce [1, 2, 3])
    (by decide) (by decide) (by decide) (by decide)


/-! ## Error codes (`file_io.rs:14-22`) -/

def SUCCESS : Int := 0
def ERROR_NULL_POINTER : Int := -1
def ERROR_FILE_NOT_FOUND : Int := -2
def ERROR_PERMISSION_DENIED : Int := -3
def ERROR_DISK_FULL : Int := -4
def ERROR_INVALID_PATH : Int := -5
def ERROR_IO_FAILED : Int := -6
def ERROR_CANCELLED : Int := -7
def ERROR_BUFFER_ALLOC_FAILED : Int := -8

/-! ## Claim C3: the progress throttler (`file_io.rs:28-64`)

`Instant` timestamps are modelled as milliseconds on a monotone clock,
passed explicitly to `should_update` as the sampled `Instant::now()`. -/

structure ProgressThrottler where
  lastUpdateTime : Nat
  updateIntervalMs : Nat
  lastBytesProcessed : Nat
  lastBytesTransferred : Nat
  deriving Repr, DecidableEq

/-- `ProgressThrottler::new` (`file_io.rs:36`), created at clock time `now`. -/
def ProgressThrottler.new (intervalMs now : Nat) : ProgressThrottler :=
  { lastUpdateTime := now, updateIntervalMs := intervalMs,
    lastBytesProcessed := 0, lastBytesTransferred := 0 }

/-- `ProgressThrottler::should_update` (`file_io.rs:47`): reports when the
interval elapsed, or `bytes_processed == 0`, or `bytes_processed` differs
from the previously recorded value; on a report the state is refreshed. -/
def ProgressThrottler.should_update (s : ProgressThrottler)
    (now bytesProcessed bytesTransferred : Nat) : Bool × ProgressThrottler :=
  let elapsed := now - s.lastUpdateTime
  let su := decide (s.updateIntervalMs ≤ elapsed) || decide (bytesProcessed = 0) ||
            decide (s.lastBytesProcessed ≠ bytesProcessed)
  if su then
    (true, { s with lastUpdateTime := now, lastBytesProcessed := bytesProcessed,
                    lastBytesTransferred := bytesTransferred })
  else (false, s)

/-- Claim C3 fails on the code (code bug): with the nominal 500 ms interval,
two successive `should_update` calls only 1 ms apart both return true,
because the byte count changed, although the second is not the terminal
notification (2 of 10 total bytes).  The throttler admits a notification
whenever `bytes_processed` differs from the previous value, regardless of
the elapsed wall-clock time. -/
theorem should_update_admits_two_within_interval :
    (((ProgressThrottler.new 500 0).should_update 100 1 10).fst = true) ∧
    ((((ProgressThrottler.new 500 0).should_update 100 1 10).snd.should_update
        101 2 10).fst = true) ∧
    101 - 100 < 500 ∧ (2 : Nat) ≠ 10 := by
  decide

/-! ## Claim C6: behaviour under a pre-set cancellation flag

The filesystem side effects of each operation are recorded explicitly:
which files get created, which bytes get written, which progress
callbacks fire.  The cancel flag is modelled as the constant value it
holds for the whole call (the claim concerns a flag set before the
session starts). -/

structure CopyEffects where
  destCreated : Bool
  written : List Nat
  events : List (Nat × Nat)
  deriving Repr, DecidableEq

/-- The `loop` of `copy_file_streaming` (`copy.rs:117-143`): poll
cancellation, read a chunk (empty read breaks), write it, report progress
through the throttler when a callback is installed.  `fuel` bounds the
iteration count; `remaining.length + 1` always suffices. -/
def copyFileLoop (cancel hasCallback : Bool) (clock : Nat → Nat)
    (cs totalBytes : Nat) :
    Nat → List Nat → Nat → ProgressThrottler → Nat → CopyEffects → Int × CopyEffects
  | 0, _, _, _, _, eff => (ERROR_IO_FAILED, eff)
  | fuel + 1, remaining, bytesCopied, th, tick, eff =>
      if cancel then (ERROR_CANCELLED, eff)
      else if remaining.isEmpty then (SUCCESS, eff)
      else
        let chunk := remaining.take cs
        let bytes1 := bytesCopied + chunk.length
        let eff1 := { eff with written := eff.written ++ chunk }
        if hasCallback then
          match th.should_update (clock tick) bytes1 totalBytes with
          | (true, th1) =>
              copyFileLoop cancel hasCallback clock cs totalBytes fuel
                (remaining.drop cs) bytes1 th1 (tick + 1)
                { eff1 with events := eff1.events ++ [(bytes1, totalBytes)] }
          | (false, th1) =>
              copyFileLoop cancel hasCallback clock cs totalBytes fuel
                (remaining.drop cs) bytes1 th1 (tick + 1) eff1
        else
          copyFileLoop cancel hasCallback clock cs totalBytes fuel
            (remaining.drop cs) bytes1 th (tick + 1) eff1

/-- `copy_file_streaming` (`copy.rs:63`): metadata lookup (`none` source =
`FILE_NOT_FOUND`), destination creation (before the first cancellation
poll), clamped chunk size, the pump loop, then one unconditional final
progress callback and a flush. -/
def copy_file_streaming (srcContent : Option (List Nat)) (chunkSize : Nat)
    (hasCallback cancel : Bool) (clock : Nat → Nat) : Int × CopyEffects :=
  match srcContent with
  | none => (ERROR_FILE_NOT_FOUND, ⟨false, [], []⟩)
  | some content =>
      let totalBytes := content.length
      let th := ProgressThrottler.new 500 (clock 0)
      let eff0 : CopyEffects := ⟨true, [], []⟩
      let cs := min (max chunkSize 65536) 10485760
      match copyFileLoop cancel hasCallback clock cs totalBytes
          (content.length + 1) content 0 th 1 eff0 with
      | (code, eff) =>
          if code = SUCCESS then
            (SUCCESS, if hasCallback then
              { eff with events := eff.events ++ [(totalBytes, totalBytes)] }
            else eff)
          else (code, eff)

/-- `CloudCopyContext` (`copy.rs:920`). -/
structure CloudCopyCtx where
  chunkSize : Nat
  bytesCopied : Nat
  totalBytes : Nat
  cancel : Bool
  throttler : ProgressThrottler
  deriving Repr, DecidableEq

/-- `cloud_copy_process_chunk` (`copy.rs:996`): poll cancellation, invoke
the read callback (negative = error, 0 = EOF), invoke the write callback,
account the bytes.  Returns the code together with the updated context and
the number of read and write callback invocations. -/
def cloud_copy_process_chunk (ctx : CloudCopyCtx) (readResult writeResult : Int)
    (now : Nat) : Int × CloudCopyCtx × Nat × Nat :=
  if ctx.cancel then (ERROR_CANCELLED, ctx, 0, 0)
  else if readResult < 0 then (readResult, ctx, 1, 0)
  else if readResult = 0 then (0, ctx, 1, 0)
  else if writeResult < 0 then (writeResult, ctx, 1, 1)
  else
    let bytes1 := ctx.bytesCopied + readResult.toNat
    let th1 := (ctx.throttler.should_update now bytes1 (max ctx.totalBytes bytes1)).snd
    (readResult, { ctx with bytesCopied := bytes1, throttler := th1 }, 1, 1)

/-- `DownloadContext` (`download.rs:20`), with the destination-file side
effects recorded alongside. -/
structure DownloadCtx where
  outputOpen : Bool
  destCreated : Bool
  fileWritten : List Nat
  decryptionCtx : Option (List Nat)
  masterKey : List Nat
  bytesWritten : Nat
  totalBytes : Nat
  shouldDecrypt : Bool
  cancel : Bool
  throttler : ProgressThrottler
  headerWritten : Bool
  events : List (Nat × Nat)

/-- `download_init` (`download.rs:68`): `File::create` runs here, at
initialisation, so the destination file exists (truncated) before any
chunk is processed; the buffered writer is opened lazily later. -/
def download_init (shouldDecrypt : Bool) (masterKey : List Nat) (cancel : Bool)
    (now : Nat) : DownloadCtx :=
  { outputOpen := false, destCreated := true, fileWritten := [],
    decryptionCtx := none, masterKey := masterKey, bytesWritten := 0,
    totalBytes := 0, shouldDecrypt := shouldDecrypt, cancel := cancel,
    throttler := ProgressThrottler.new 500 now, headerWritten := false,
    events := [] }

/-- `decrypt_file_init` (`lib.rs:1091`): parses the main header, validates
magic and version, and unwraps the FEK; the returned FEK is the
`DecryptionContext`. -/
def decrypt_file_init (A : Aead) (encryptedData masterKey : List Nat) :
    Option (List Nat) :=
  if masterKey.length ≠ KEY_SIZE then none
  else if encryptedData.length < HEADER_SIZE then none
  else
    match parse_header (encryptedData.take HEADER_SIZE) with
    | none => none
    | some (magic, version, fekLength) =>
        if ¬(magic = MAGIC ∧ version = VERSION) then none
        else if encryptedData.length < HEADER_SIZE + fekLength then none
        else unwrap_key A ((encryptedData.drop HEADER_SIZE).take fekLength) masterKey

/-- Updates `ctx` after a throttled progress callback
(`download.rs:309-313`): `should_update` runs only when a callback is
installed. -/
def downloadProgress (ctx : DownloadCtx) (hasCallback : Bool) (now : Nat) :
    DownloadCtx :=
  if hasCallback then
    match ctx.throttler.should_update now ctx.bytesWritten ctx.totalBytes with
    | (true, th1) =>
        { ctx with
          throttler := th1,
          events := ctx.events ++ [(ctx.bytesWritten, ctx.totalBytes)] }
    | (false, th1) => { ctx with throttler := th1 }
  else ctx

/-- `download_append_chunk` (`download.rs:154`): poll cancellation, open
the buffered writer lazily, initialise streaming decryption from the first
chunk when enabled (writing the header + wrapped FEK through unchanged and
decrypting any tail), then decrypt-or-pass-through subsequent chunks. -/
def download_append_chunk (A : Aead) (ctx : DownloadCtx) (data : List Nat)
    (hasCallback : Bool) (now : Nat) : Int × DownloadCtx :=
  if ctx.cancel then (ERROR_CANCELLED, ctx)
  else
    let ctx := if ctx.outputOpen then ctx else { ctx with outputOpen := true }
    if ctx.shouldDecrypt && ctx.decryptionCtx.isNone && !ctx.masterKey.isEmpty then
      if data.length < 12 then (ERROR_INVALID_PATH, ctx)
      else
        let fekLen := decodeLe32 ((data.drop 8).take 4)
        if data.length < 12 + fekLen then (ERROR_INVALID_PATH, ctx)
        else
          match decrypt_file_init A (data.take (12 + fekLen)) ctx.masterKey with
          | none => (ERROR_IO_FAILED, ctx)
          | some fek =>
              let ctx := { ctx with
                decryptionCtx := some fek,
                fileWritten := ctx.fileWritten ++ data.take (12 + fekLen),
                headerWritten := true, bytesWritten := 12 + fekLen }
              if 12 + fekLen < data.length then
                match decrypt_chunk_impl A (data.drop (12 + fekLen)) fek with
                | none => (ERROR_IO_FAILED, ctx)
                | some (pt, _) =>
                    let ctx := { ctx with
                      fileWritten := ctx.fileWritten ++ pt,
                      bytesWritten := ctx.bytesWritten + pt.length }
                    (SUCCESS, downloadProgress ctx hasCallback now)
              else (SUCCESS, downloadProgress ctx hasCallback now)
    else if ctx.shouldDecrypt && ctx.decryptionCtx.isSome then
      match ctx.decryptionCtx with
      | none => (ERROR_IO_FAILED, ctx)
      | some fek =>
          match decrypt_chunk_impl A data fek with
          | none => (ERROR_IO_FAILED, ctx)
          | some (pt, _) =>
              let ctx := { ctx with
                fileWritten := ctx.fileWritten ++ pt,
                bytesWritten := ctx.bytesWritten + pt.length }
              (SUCCESS, downloadProgress ctx hasCallback now)
    else
      let ctx := { ctx with
        fileWritten := ctx.fileWritten ++ data,
        bytesWritten := ctx.bytesWritten + data.length }
      (SUCCESS, downloadProgress ctx hasCallback now)

/-- Counterexample to C6 as stated: with the cancel flag set before the
copy starts, `copy_file_streaming` returns `CANCELLED` having written
nothing — but the destination file HAS been created, because
`File::create` runs before the first cancellation poll. -/
theorem copy_file_streaming_preset_cancel_creates_dest :
    copy_file_streaming (some [1, 2, 3]) 65536 false true (fun _ => 0)
      = (ERROR_CANCELLED, ⟨true, [], []⟩) := by
  decide

/-- C6 amended: with the cancellation flag set before the session starts,
the first process call of each engine returns `CANCELLED`, writes no data
and fires no callback — but the destination file is nevertheless created:
by `copy_file_streaming` itself just before its first poll point, and by
`download_init` at session initialisation.  Only the cloud relay touches
nothing (neither host callback is invoked). -/
theorem preset_cancel_returns_cancelled_but_dest_created
    (content : List Nat) (chunkSize : Nat) (hasCallback : Bool) (clock : Nat → Nat)
    (A : Aead) (dctx : DownloadCtx) (data : List Nat) (now : Nat)
    (cctx : CloudCopyCtx) (rr wr : Int)
    (hd : dctx.cancel = true) (hc : cctx.cancel = true) :
    copy_file_streaming (some content) chunkSize hasCallback true clock
      = (ERROR_CANCELLED, ⟨true, [], []⟩) ∧
    download_append_chunk A dctx data hasCallback now = (ERROR_CANCELLED, dctx) ∧
    (download_init dctx.shouldDecrypt dctx.masterKey true now).destCreated = true ∧
    cloud_copy_process_chunk cctx rr wr now = (ERROR_CANCELLED, cctx, 0, 0) := by
  refine ⟨?_, ?_, rfl, ?_⟩
  · rw [copy_file_streaming]
    rw [copyFileLoop]
    simp [ERROR_CANCELLED, SUCCESS]
  · rw [download_append_chunk, if_pos hd]
  · rw [cloud_copy_process_chunk, if_pos hc]

/-- Witness for the amended C6 theorem at concrete inputs. -/
theorem preset_cancel_returns_cancelled_but_dest_created_witness :
    copy_file_streaming (some [1, 2, 3]) 0 true true (fun _ => 0)
      = (ERROR_CANCELLED, ⟨true, [], []⟩) ∧
    download_append_chunk mockAead
        (download_init true (List.replicate 32 0) true 0) [] true 0
      = (ERROR_CANCELLED, download_init true (List.replicate 32 0) true 0) ∧
    (download_init (download_init true (List.replicate 32 0) true 0).shouldDecrypt
        (download_init true (List.replicate 32 0) true 0).masterKey true 0).destCreated
      = true ∧
    cloud_copy_process_chunk ⟨65536, 0, 0, true, ProgressThrottler.new 500 0⟩ 1 0 0
      = (ERROR_CANCELLED, ⟨65536, 0, 0, true, ProgressThrottler.new 500 0⟩, 0, 0) :=
  preset_cancel_returns_cancelled_but_dest_created [1, 2, 3] 0 true (fun _ => 0)
    mockAead (download_init true (List.replicate 32 0) true 0) [] 0
    ⟨65536, 0, 0, true, ProgressThrottler.new 500 0⟩ 1 0 rfl rfl

/-! ## Claim C4: the folder-copy pump (`copy.rs:291-399`)

The source tree is modelled as an explicit filesystem value; destination
side effects (directories created, file copies performed) are recorded in
a world value.  `fuel` bounds the total number of loop steps and descents;
it is a model artifact only — the sentinel `ERROR_BUFFER_ALLOC_FAILED`
is returned on exhaustion and never arises in the theorems below. -/

inductive FsNode where
  | file (size : Nat)
  | dir (entries : List (String × FsNode))

/-- `count_files_and_size` (`copy.rs:255`): recursive (file count, byte
total) over the tree; `fuel` bounds the recursion depth. -/
def count_files_and_size : Nat → FsNode → Nat × Nat
  | _, .file s => (1, s)
  | 0, .dir _ => (0, 0)
  | fuel + 1, .dir es =>
      es.foldl (fun acc e =>
        let r := count_files_and_size fuel e.2
        (acc.1 + r.1, acc.2 + r.2)) (0, 0)

/-- Resolves a path (list of component names) in the tree. -/
def lookupPath : FsNode → List String → Option FsNode
  | n, [] => some n
  | .file _, _ :: _ => none
  | .dir es, name :: rest =>
      match es.find? (fun e => e.1 == name) with
      | none => none
      | some e => lookupPath e.2 rest

/-- Byte-wise lexicographic comparison of names (`OsString` ordering). -/
def charListLt : List Char → List Char → Bool
  | [], [] => false
  | [], _ :: _ => true
  | _ :: _, [] => false
  | a :: as, b :: bs =>
      if a.val < b.val then true else if b.val < a.val then false else charListLt as bs

/-- Stable insertion by name, ascending (`entries.sort_by_key(file_name)`). -/
def insertByName (x : String × FsNode) : List (String × FsNode) →
    List (String × FsNode)
  | [] => [x]
  | y :: ys => if charListLt x.1.data y.1.data then x :: y :: ys else y :: insertByName x ys

def sortByName (es : List (String × FsNode)) : List (String × FsNode) :=
  es.foldr insertByName []

/-- `FolderCopyContext` (`copy.rs:180`): paths are relative to the
modelled source tree and destination root. -/
structure FolderCopyCtx where
  sourceRoot : List String
  destRoot : List String
  bytesCopied : Nat
  totalBytes : Nat
  filesProcessed : Nat
  totalFiles : Nat
  cancel : Bool
  throttler : ProgressThrottler

/-- Destination-side effects of the folder copy: directories created so
far, source paths of the file copies performed (in order), progress
events, and the clock tick counter. -/
structure FolderCopyWorld where
  destDirs : List (List String)
  copies : List (List String)
  events : List (Nat × Nat × Nat × Nat)
  tick : Nat

/-- The entry loop of `copy_next_file_impl` (`copy.rs:335-395`): per
sorted entry, poll cancellation; a file is copied (`copy_single_file`,
modelled as succeeding), counted, reported, and 1 is returned; a
directory is created at the destination (`DirBuilder::create`, which
fails with `PERMISSION_DENIED` if it already exists), then the function
recurses into it — the recursive `copy_next_file_impl` body (re-read the
directory, sort, loop) is inlined in the `.dir` arm — and on a
non-negative result the loop continues with the remaining entries. -/
def copyEntriesLoop (root : FsNode) (hasCallback : Bool) (clock : Nat → Nat) :
    Nat → List (String × FsNode) → FolderCopyCtx → FolderCopyWorld →
      Int × FolderCopyCtx × FolderCopyWorld
  | 0, _, ctx, w => (ERROR_BUFFER_ALLOC_FAILED, ctx, w)
  | _ + 1, [], ctx, w => (0, ctx, w)
  | fuel + 1, (name, node) :: rest, ctx, w =>
      if ctx.cancel then (ERROR_CANCELLED, ctx, w)
      else
        let srcPath := ctx.sourceRoot ++ [name]
        let destPath := ctx.destRoot ++ [name]
        match node with
        | .file size =>
            let w := { w with copies := w.copies ++ [srcPath] }
            let ctx := { ctx with
              bytesCopied := ctx.bytesCopied + size,
              filesProcessed := ctx.filesProcessed + 1 }
            if hasCallback then
              match ctx.throttler.should_update (clock w.tick) ctx.bytesCopied
                  ctx.totalBytes with
              | (true, th1) =>
                  (1, { ctx with throttler := th1 },
                    { w with
                      events := w.events ++
                        [(ctx.bytesCopied, ctx.totalBytes, ctx.filesProcessed,
                          ctx.totalFiles)],
                      tick := w.tick + 1 })
              | (false, th1) =>
                  (1, { ctx with throttler := th1 }, { w with tick := w.tick + 1 })
            else (1, ctx, w)
        | .dir _ =>
            if destPath ∈ w.destDirs then (ERROR_PERMISSION_DENIED, ctx, w)
            else
              let w := { w with destDirs := w.destDirs ++ [destPath] }
              let saveSrc := ctx.sourceRoot
              let saveDst := ctx.destRoot
              let ctx1 := { ctx with sourceRoot := srcPath, destRoot := destPath }
              match (match lookupPath root ctx1.sourceRoot with
                     | some (FsNode.dir sub) =>
                         copyEntriesLoop root hasCallback clock fuel (sortByName sub)
                           ctx1 w
                     | _ => (ERROR_IO_FAILED, ctx1, w)) with
              | (res, ctx2, w2) =>
                  let ctx3 := { ctx2 with sourceRoot := saveSrc, destRoot := saveDst }
                  if res < 0 then (res, ctx3, w2)
                  else copyEntriesLoop root hasCallback clock fuel rest ctx3 w2
termination_by structural fuel _ _ _ => fuel

/-- `copy_next_file_impl` (`copy.rs:321`): read the directory at the
current source root (failure = `IO_FAILED`), sort entries by name, loop. -/
def copy_next_file_impl (root : FsNode) (hasCallback : Bool) (clock : Nat → Nat)
    (fuel : Nat) (ctx : FolderCopyCtx) (w : FolderCopyWorld) :
    Int × FolderCopyCtx × FolderCopyWorld :=
  match lookupPath root ctx.sourceRoot with
  | some (FsNode.dir es) => copyEntriesLoop root hasCallback clock fuel (sortByName es) ctx w
  | _ => (ERROR_IO_FAILED, ctx, w)

/-- `folder_copy_next_file` (`copy.rs:291`): 0 once `files_processed`
reaches `total_files`, `CANCELLED` on a set flag, otherwise one pump step. -/
def folder_copy_next_file (root : FsNode) (hasCallback : Bool) (clock : Nat → Nat)
    (fuel : Nat) (ctx : FolderCopyCtx) (w : FolderCopyWorld) :
    Int × FolderCopyCtx × FolderCopyWorld :=
  if ctx.totalFiles ≤ ctx.filesProcessed then (0, ctx, w)
  else if ctx.cancel then (ERROR_CANCELLED, ctx, w)
  else copy_next_file_impl root hasCallback clock fuel ctx w

/-- The two-file source folder of the failing scenario. -/
def c4Root : FsNode := .dir [("a.txt", .file 1), ("b.txt", .file 2)]

/-- Context as produced by `folder_copy_init` on `c4Root`:
`count_files_and_size` gives 2 files, 3 bytes. -/
def c4Ctx0 : FolderCopyCtx :=
  { sourceRoot := [], destRoot := [], bytesCopied := 0,
    totalBytes := (count_files_and_size 10 c4Root).2,
    filesProcessed := 0, totalFiles := (count_files_and_size 10 c4Root).1,
    cancel := false, throttler := ProgressThrottler.new 500 0 }

/-- World after `folder_copy_init`: the destination root was created. -/
def c4W0 : FolderCopyWorld := { destDirs := [[]], copies := [], events := [], tick := 0 }

def c4Step1 : Int × FolderCopyCtx × FolderCopyWorld :=
  folder_copy_next_file c4Root false (fun _ => 0) 100 c4Ctx0 c4W0

def c4Step2 : Int × FolderCopyCtx × FolderCopyWorld :=
  folder_copy_next_file c4Root false (fun _ => 0) 100 c4Step1.2.1 c4Step1.2.2

def c4Step3 : Int × FolderCopyCtx × FolderCopyWorld :=
  folder_copy_next_file c4Root false (fun _ => 0) 100 c4Step2.2.1 c4Step2.2.2

/-- Claim C4 fails on the code (code bug): the pump keeps no record of
which files were already processed — each call re-reads the source
directory, sorts it, and copies the FIRST file again.  On a folder with
files `a.txt` (1 byte) and `b.txt` (2 bytes), the first two calls both
copy `a.txt` and return 1; the third call returns 0 ("all files done")
although `b.txt` was never copied and `a.txt` was copied twice. -/
theorem folder_copy_next_file_recopies_first_file :
    c4Step1.1 = 1 ∧ c4Step2.1 = 1 ∧ c4Step3.1 = 0 ∧
    c4Step3.2.2.copies = [["a.txt"], ["a.txt"]] ∧
    ["b.txt"] ∉ c4Step3.2.2.copies := by
  decide

/-! ## Claims C7-C9: the search index (`search/index.rs`)

The three `HashMap`s are modelled as functions to `Option`; map equality
is extensional equality, which is `HashMap` equality up to iteration
order.  Word keys are lowercased character lists (`to_lowercase` is
modelled by the ASCII `Char.toLower` character map). -/

structure SearchDocument where
  node_id : String
  account_id : String
  provider : String
  email : String
  name : String
  is_folder : Bool
  parent_id : Option String
  deriving Repr, DecidableEq

def mapUpdate {κ β : Type} [DecidableEq κ] (m : κ → Option β) (k : κ) (v : Option β) :
    κ → Option β :=
  fun q => if q = k then v else m q

structure SearchIndex where
  documents : String → Option SearchDocument
  name_index : List Char → Option (List String)
  account_index : String → Option (List String)

def SearchIndex.empty : SearchIndex :=
  ⟨fun _ => none, fun _ => none, fun _ => none⟩

/-- `name.to_lowercase()` over the characters (ASCII case mapping). -/
def lowerChars (s : String) : List Char := s.data.map Char.toLower

/-- `split_whitespace`: maximal runs of non-whitespace characters. -/
def splitWsGo : List Char → List Char → List (List Char)
  | [], acc => if acc.isEmpty then [] else [acc.reverse]
  | c :: cs, acc =>
      if c.isWhitespace then
        if acc.isEmpty then splitWsGo cs [] else acc.reverse :: splitWsGo cs []
      else splitWsGo cs (c :: acc)

/-- Tokens of a document name: lowercase, split on whitespace, drop empty
words (`add_document`, `search/index.rs:61-62`). -/
def tokensOf (name : String) : List (List Char) :=
  (splitWsGo (lowerChars name) []).filter (fun w => !w.isEmpty)

/-- `entry(word).or_insert_with(Vec::new).push(node_id)`
(`search/index.rs:63-66`). -/
def pushPosting {κ : Type} [DecidableEq κ] (m : κ → Option (List String))
    (k : κ) (id : String) : κ → Option (List String) :=
  mapUpdate m k (some ((m k).getD [] ++ [id]))

/-- The value transformation of `remove_document` on one posting list:
`ids.retain(|x| x != node_id)`, deleting the entry when it empties. -/
def scrubVal (o : Option (List String)) (id : String) : Option (List String) :=
  match o with
  | none => none
  | some l =>
      if (l.filter (fun x => x != id)).isEmpty then none
      else some (l.filter (fun x => x != id))

/-- `remove_document`s treatment of one key (`search/index.rs:83-98`):
`get_mut` misses leave the map unchanged. -/
def scrubPosting {κ : Type} [DecidableEq κ] (m : κ → Option (List String))
    (k : κ) (id : String) : κ → Option (List String) :=
  match m k with
  | none => m
  | some l =>
      if (l.filter (fun x => x != id)).isEmpty then mapUpdate m k none
      else mapUpdate m k (some (l.filter (fun x => x != id)))

/-- `SearchIndex::add_document` (`search/index.rs:52`). -/
def SearchIndex.add_document (idx : SearchIndex) (doc : SearchDocument) :
    SearchIndex :=
  { documents := mapUpdate idx.documents doc.node_id (some doc),
    name_index := (tokensOf doc.name).foldl
      (fun m w => pushPosting m w doc.node_id) idx.name_index,
    account_index := pushPosting idx.account_index doc.account_id doc.node_id }

/-- `SearchIndex::remove_document` (`search/index.rs:78`). -/
def SearchIndex.remove_document (idx : SearchIndex) (nodeId : String) :
    SearchIndex × Option SearchDocument :=
  match idx.documents nodeId with
  | none => (idx, none)
  | some doc =>
      ({ documents := mapUpdate idx.documents nodeId none,
         name_index := (tokensOf doc.name).foldl
           (fun m w => scrubPosting m w nodeId) idx.name_index,
         account_index := scrubPosting idx.account_index doc.account_id nodeId },
       some doc)

def c7Doc : SearchDocument :=
  { node_id := "1", account_id := "acc", provider := "p", email := "e",
    name := "a a", is_folder := false, parent_id := none }

/-- Counterexample to C7 as stated: adding a single document whose name
contains a repeated token ("a a") makes its node id appear TWICE in that
token's posting list — not exactly once — although the store holds the
document exactly once. -/
theorem add_document_repeated_token_double_posting :
    (SearchIndex.empty.add_document c7Doc).documents "1" = some c7Doc ∧
    (SearchIndex.empty.add_document c7Doc).name_index [Char.ofNat 97] = some ["1", "1"] ∧
    List.count "1"
      (((SearchIndex.empty.add_document c7Doc).name_index [Char.ofNat 97]).getD []) = 2 := by
  decide

def c9Doc : SearchDocument :=
  { node_id := "1", account_id := "acc", provider := "p", email := "e",
    name := "x", is_folder := false, parent_id := none }

/-- A reachable index state (add "1"/"x", add "1"/"y", remove "1" leaves
exactly this) in which node id "1" is absent from the store but still
present in the posting list of "x". -/
def c9Stale : SearchIndex :=
  { documents := fun _ => none,
    name_index := fun w => if w = [Char.ofNat 120] then some ["1"] else none,
    account_index := fun _ => none }

/-- Counterexample to C9 as stated: on a state satisfying the claim's
hypothesis (the node id is not in the document store) but carrying a
stale posting for it, add followed by remove does NOT restore the word
index: the stale posting is destroyed too. -/
theorem add_remove_on_stale_postings_not_identity :
    c9Stale.documents "1" = none ∧
    c9Stale.name_index [Char.ofNat 120] = some ["1"] ∧
    ((c9Stale.add_document c9Doc).remove_document "1").1.name_index
      [Char.ofNat 120] = none := by
  decide

/-! ### Pointwise characterisation of the posting folds -/

/-- Occurrence count with the same decidable equality the maps use. -/
def countOcc {κ : Type} [DecidableEq κ] (q : κ) : List κ → Nat
  | [] => 0
  | t :: ts => if t = q then countOcc q ts + 1 else countOcc q ts

theorem pushPosting_apply {κ : Type} [DecidableEq κ] (m : κ → Option (List String))
    (k : κ) (id : String) (q : κ) :
    pushPosting m k id q = if q = k then some ((m k).getD [] ++ [id]) else m q := rfl

theorem foldl_pushPosting_apply {κ : Type} [DecidableEq κ] (id : String) :
    ∀ (tokens : List κ) (m : κ → Option (List String)) (q : κ),
      (tokens.foldl (fun m w => pushPosting m w id) m) q
        = if countOcc q tokens = 0 then m q
          else some ((m q).getD [] ++ List.replicate (countOcc q tokens) id) := by
  intro tokens
  induction tokens with
  | nil => intro m q; simp [countOcc]
  | cons t ts ih =>
      intro m q
      simp only [List.foldl_cons]
      rw [ih (pushPosting m t id) q]
      by_cases hqt : t = q
      · subst hqt
        have hc : countOcc t (t :: ts) = countOcc t ts + 1 := by
          rw [countOcc, if_pos rfl]
        rw [hc, pushPosting_apply, if_pos rfl]
        by_cases h0 : countOcc t ts = 0
        · rw [if_pos h0, h0, if_neg (by omega)]
          rfl
        · rw [if_neg h0, if_neg (by omega), Option.getD_some]
          have hrep : List.replicate (countOcc t ts + 1) id
              = [id] ++ List.replicate (countOcc t ts) id := by
            simp [List.replicate_succ]
          rw [hrep, List.append_assoc]
      · have hc : countOcc q (t :: ts) = countOcc q ts := by
          rw [countOcc, if_neg hqt]
        rw [hc, pushPosting_apply, if_neg (show ¬(q = t) from fun h => hqt h.symm)]

theorem scrubPosting_apply {κ : Type} [DecidableEq κ] (m : κ → Option (List String))
    (k : κ) (id : String) (q : κ) :
    scrubPosting m k id q = if q = k then scrubVal (m k) id else m q := by
  cases h : m k with
  | none =>
      by_cases hqk : q = k
      · subst hqk; simp [scrubPosting, h, scrubVal]
      · simp [scrubPosting, h, hqk]
  | some l =>
      by_cases hqk : q = k
      · subst hqk
        by_cases he : (l.filter (fun x => x != id)).isEmpty
        · simp [scrubPosting, h, scrubVal, he, mapUpdate]
        · simp [scrubPosting, h, scrubVal, he, mapUpdate]
      · by_cases he : (l.filter (fun x => x != id)).isEmpty
        · simp [scrubPosting, h, he, mapUpdate, hqk]
        · simp [scrubPosting, h, he, mapUpdate, hqk]

theorem filter_ne_idem (l : List String) (id : String) :
    (l.filter (fun x => x != id)).filter (fun x => x != id)
      = l.filter (fun x => x != id) :=
  List.filter_eq_self.mpr (fun a ha => (List.mem_filter.mp ha).2)

theorem scrubVal_idem (o : Option (List String)) (id : String) :
    scrubVal (scrubVal o id) id = scrubVal o id := by
  cases o with
  | none => rfl
  | some l =>
      rw [scrubVal]
      by_cases he : (l.filter (fun x => x != id)).isEmpty
      · rw [if_pos he]; rfl
      · rw [if_neg he, scrubVal, filter_ne_idem, if_neg he]

theorem foldl_scrubPosting_apply {κ : Type} [DecidableEq κ] (id : String) :
    ∀ (tokens : List κ) (m : κ → Option (List String)) (q : κ),
      (tokens.foldl (fun m w => scrubPosting m w id) m) q
        = if countOcc q tokens = 0 then m q else scrubVal (m q) id := by
  intro tokens
  induction tokens with
  | nil => intro m q; simp [countOcc]
  | cons t ts ih =>
      intro m q
      simp only [List.foldl_cons]
      rw [ih (scrubPosting m t id) q]
      by_cases hqt : t = q
      · subst hqt
        have hc : countOcc t (t :: ts) = countOcc t ts + 1 := by
          rw [countOcc, if_pos rfl]
        rw [hc, scrubPosting_apply, if_pos rfl]
        by_cases h0 : countOcc t ts = 0
        · rw [if_pos h0, if_neg (by omega)]
        · rw [if_neg h0, if_neg (by omega), scrubVal_idem]
      · have hc : countOcc q (t :: ts) = countOcc q ts := by
          rw [countOcc, if_neg hqt]
        rw [hc, scrubPosting_apply, if_neg (show ¬(q = t) from fun h => hqt h.symm)]

theorem scrubVal_append_replicate (o : Option (List String)) (id : String) (k : Nat)
    (ho : ∀ l, o = some l → id ∉ l ∧ l ≠ []) :
    scrubVal (some (o.getD [] ++ List.replicate k id)) id = o := by
  have hfilrep : (List.replicate k id).filter (fun x => x != id) = [] := by
    apply List.filter_eq_nil_iff.mpr
    intro a ha
    have : a = id := List.eq_of_mem_replicate ha
    simp [this]
  cases o with
  | none =>
      rw [scrubVal]
      simp only [Option.getD_none, List.nil_append, hfilrep, List.isEmpty_nil, if_true]
  | some l =>
      have hl := ho l rfl
      have hfl : l.filter (fun x => x != id) = l := by
        apply List.filter_eq_self.mpr
        intro a ha
        have hne : a ≠ id := fun h => hl.1 (h ▸ ha)
        simpa using hne
      rw [scrubVal]
      simp only [Option.getD_some, List.filter_append, hfilrep, hfl, List.append_nil]
      rw [if_neg (fun hcontra => hl.2 (List.isEmpty_iff.mp hcontra))]

theorem SearchIndex.ext_maps {a b : SearchIndex}
    (h1 : ∀ k, a.documents k = b.documents k)
    (h2 : ∀ w, a.name_index w = b.name_index w)
    (h3 : ∀ x, a.account_index x = b.account_index x) : a = b := by
  cases a; cases b
  simp only [SearchIndex.mk.injEq]
  exact ⟨funext h1, funext h2, funext h3⟩

/-- C9 amended: when `d.node_id` is absent from the document store AND
from every posting list of the word and account indexes, and (as in every
reachable state) no stored posting list is empty, `remove_document`
after `add_document` restores all three maps exactly, and returns the
removed document. -/
theorem add_then_remove_restores_index (s : SearchIndex) (d : SearchDocument)
    (hdoc : s.documents d.node_id = none)
    (hname : ∀ w l, s.name_index w = some l → d.node_id ∉ l ∧ l ≠ [])
    (hacct : ∀ a l, s.account_index a = some l → d.node_id ∉ l ∧ l ≠ []) :
    (s.add_document d).remove_document d.node_id = (s, some d) := by
  have hlook : (s.add_document d).documents d.node_id = some d := by
    simp [SearchIndex.add_document, mapUpdate]
  rw [SearchIndex.remove_document, hlook]
  refine Prod.ext ?_ rfl
  apply SearchIndex.ext_maps
  · intro k
    by_cases hk : k = d.node_id
    · subst hk
      simp [SearchIndex.add_document, mapUpdate, hdoc]
    · simp [SearchIndex.add_document, mapUpdate, hk]
  · intro w
    show ((tokensOf d.name).foldl (fun m w => scrubPosting m w d.node_id)
        (s.add_document d).name_index) w = s.name_index w
    rw [foldl_scrubPosting_apply]
    by_cases h0 : countOcc w (tokensOf d.name) = 0
    · rw [if_pos h0]
      show ((tokensOf d.name).foldl (fun m w => pushPosting m w d.node_id)
          s.name_index) w = s.name_index w
      rw [foldl_pushPosting_apply, if_pos h0]
    · rw [if_neg h0]
      have hpush : (s.add_document d).name_index w
          = some ((s.name_index w).getD [] ++
              List.replicate (countOcc w (tokensOf d.name)) d.node_id) := by
        show ((tokensOf d.name).foldl (fun m w => pushPosting m w d.node_id)
            s.name_index) w = _
        rw [foldl_pushPosting_apply, if_neg h0]
      rw [hpush]
      exact scrubVal_append_replicate (s.name_index w) d.node_id _
        (fun l hl => hname w l hl)
  · intro x
    show scrubPosting (s.add_document d).account_index d.account_id d.node_id x
        = s.account_index x
    rw [scrubPosting_apply]
    by_cases hx : x = d.account_id
    · rw [if_pos hx]
      have hpush : (s.add_document d).account_index d.account_id
          = some ((s.account_index d.account_id).getD [] ++
              List.replicate 1 d.node_id) := by
        show pushPosting s.account_index d.account_id d.node_id d.account_id = _
        rw [pushPosting_apply, if_pos rfl]
        rfl
      rw [hpush, hx]
      exact scrubVal_append_replicate (s.account_index d.account_id) d.node_id 1
        (fun l hl => hacct d.account_id l hl)
    · rw [if_neg hx]
      show pushPosting s.account_index d.account_id d.node_id x = s.account_index x
      rw [pushPosting_apply, if_neg hx]

/-- Witness for the amended C9 theorem: on the empty index. -/
theorem add_then_remove_restores_index_witness :
    (SearchIndex.empty.add_document c9Doc).remove_document "1"
      = (SearchIndex.empty, some c9Doc) :=
  add_then_remove_restores_index SearchIndex.empty c9Doc rfl
    (fun _ _ h => nomatch h) (fun _ _ h => nomatch h)

/-! ### Claim C7: the posting-list invariant over operation sequences -/

theorem countOcc_append {κ : Type} [DecidableEq κ] (q : κ) (l1 l2 : List κ) :
    countOcc q (l1 ++ l2) = countOcc q l1 + countOcc q l2 := by
  induction l1 with
  | nil => simp [countOcc]
  | cons a l ih =>
      rw [List.cons_append, countOcc, countOcc]
      by_cases h : a = q
      · rw [if_pos h, if_pos h, ih]; omega
      · rw [if_neg h, if_neg h, ih]

theorem countOcc_replicate_self (id : String) (k : Nat) :
    countOcc id (List.replicate k id) = k := by
  induction k with
  | zero => rfl
  | succ n ih => rw [List.replicate_succ, countOcc, if_pos rfl, ih]

theorem countOcc_replicate_ne (q id : String) (k : Nat) (h : q ≠ id) :
    countOcc q (List.replicate k id) = 0 := by
  induction k with
  | zero => rfl
  | succ n ih => rw [List.replicate_succ, countOcc, if_neg (fun e => h e.symm), ih]

theorem countOcc_eq_zero_iff {κ : Type} [DecidableEq κ] (q : κ) (l : List κ) :
    countOcc q l = 0 ↔ q ∉ l := by
  induction l with
  | nil => simp [countOcc]
  | cons a l ih =>
      by_cases h : a = q
      · subst h
        rw [countOcc, if_pos rfl]
        simp
      · rw [countOcc, if_neg h, ih]
        constructor
        · intro hq hmem
          rcases List.mem_cons.mp hmem with he | hm
          · exact h he.symm
          · exact hq hm
        · intro hq hm
          exact hq (List.mem_cons_of_mem a hm)

theorem countOcc_filter_ne (q id0 : String) (l : List String) (h : q ≠ id0) :
    countOcc q (l.filter (fun x => x != id0)) = countOcc q l := by
  induction l with
  | nil => rfl
  | cons a l ih =>
      rw [List.filter_cons]
      by_cases ha : a = id0
      · have hfa : (a != id0) = false := by simp [ha]
        rw [hfa]
        simp only [Bool.false_eq_true, if_false]
        have hrhs : countOcc q (a :: l) = countOcc q l := by
          rw [countOcc, if_neg (fun e => h (by rw [← e]; exact ha))]
        rw [hrhs, ih]
      · have hfa : (a != id0) = true := by simp [ha]
        rw [hfa, if_pos rfl]
        by_cases haq : a = q
        · rw [countOcc, if_pos haq, countOcc, if_pos haq, ih]
        · rw [countOcc, if_neg haq, countOcc, if_neg haq, ih]

/-- Count of an unrelated id through one `remove_document` posting-list
transformation. -/
theorem countOcc_scrubVal (o : Option (List String)) (id0 q : String) (h : q ≠ id0) :
    countOcc q ((scrubVal o id0).getD []) = countOcc q (o.getD []) := by
  cases o with
  | none => rfl
  | some l =>
      rw [scrubVal]
      by_cases he : (l.filter (fun x => x != id0)).isEmpty
      · rw [if_pos he]
        have h0 : countOcc q (l.filter (fun x => x != id0)) = 0 := by
          rw [List.isEmpty_iff.mp he]; rfl
        rw [countOcc_filter_ne q id0 l h] at h0
        simp only [Option.getD_none, Option.getD_some]
        rw [h0]; rfl
      · rw [if_neg he]
        simp only [Option.getD_some]
        exact countOcc_filter_ne q id0 l h

/-- The invariant maintained by the index (C7, amended): for every stored
document, its id occurs in each word posting list exactly as often as the
word occurs among the name's tokens, and exactly once in its account's
posting list; posting lists are nonempty and free of stale ids. -/
def PostingInv (s : SearchIndex) : Prop :=
  (∀ id doc, s.documents id = some doc →
    (∀ w, countOcc id ((s.name_index w).getD []) = countOcc w (tokensOf doc.name)) ∧
    (∀ a, countOcc id ((s.account_index a).getD [])
        = if a = doc.account_id then 1 else 0)) ∧
  (∀ w l, s.name_index w = some l → l ≠ [] ∧ ∀ id ∈ l, (s.documents id).isSome) ∧
  (∀ a l, s.account_index a = some l → l ≠ [] ∧ ∀ id ∈ l, (s.documents id).isSome)

theorem postingInv_empty : PostingInv SearchIndex.empty := by
  refine ⟨?_, ?_, ?_⟩
  · intro id doc h; cases h
  · intro w l h; cases h
  · intro a l h; cases h

theorem add_document_documents (s : SearchIndex) (d : SearchDocument) (q : String) :
    (s.add_document d).documents q
      = if q = d.node_id then some d else s.documents q := rfl

theorem add_document_name_index (s : SearchIndex) (d : SearchDocument) (w : List Char) :
    (s.add_document d).name_index w
      = if countOcc w (tokensOf d.name) = 0 then s.name_index w
        else some ((s.name_index w).getD [] ++
            List.replicate (countOcc w (tokensOf d.name)) d.node_id) :=
  foldl_pushPosting_apply d.node_id (tokensOf d.name) s.name_index w

theorem add_document_account_index (s : SearchIndex) (d : SearchDocument) (a : String) :
    (s.add_document d).account_index a
      = if a = d.account_id
        then some ((s.account_index d.account_id).getD [] ++ [d.node_id])
        else s.account_index a :=
  pushPosting_apply s.account_index d.account_id d.node_id a

/-- Adding a document with a node id that is fresh (absent from the
store) preserves the posting invariant. -/
theorem postingInv_add (s : SearchIndex) (d : SearchDocument)
    (hInv : PostingInv s) (hfresh : s.documents d.node_id = none) :
    PostingInv (s.add_document d) := by
  obtain ⟨hcnt, hns, has⟩ := hInv
  have hzero_name : ∀ w, countOcc d.node_id ((s.name_index w).getD []) = 0 := by
    intro w
    cases hw : s.name_index w with
    | none => rfl
    | some l =>
        rw [Option.getD_some, countOcc_eq_zero_iff]
        intro hin
        have hs := (hns w l hw).2 d.node_id hin
        rw [hfresh] at hs
        exact absurd hs (by simp)
  have hzero_acct : ∀ a, countOcc d.node_id ((s.account_index a).getD []) = 0 := by
    intro a
    cases hw : s.account_index a with
    | none => rfl
    | some l =>
        rw [Option.getD_some, countOcc_eq_zero_iff]
        intro hin
        have hs := (has a l hw).2 d.node_id hin
        rw [hfresh] at hs
        exact absurd hs (by simp)
  refine ⟨?_, ?_, ?_⟩
  · intro id doc hdoc
    rw [add_document_documents] at hdoc
    by_cases hid : id = d.node_id
    · rw [if_pos hid] at hdoc
      injection hdoc with hdd
      subst hdd
      subst hid
      constructor
      · intro w
        rw [add_document_name_index]
        by_cases h0 : countOcc w (tokensOf d.name) = 0
        · rw [if_pos h0, h0]
          exact hzero_name w
        · rw [if_neg h0, Option.getD_some, countOcc_append, hzero_name w,
              countOcc_replicate_self, Nat.zero_add]
      · intro a
        rw [add_document_account_index]
        by_cases ha : a = d.account_id
        · rw [if_pos ha, if_pos ha, Option.getD_some, countOcc_append, hzero_acct]
          simp [countOcc]
        · rw [if_neg ha, if_neg ha]
          exact hzero_acct a
    · rw [if_neg hid] at hdoc
      obtain ⟨hw_old, ha_old⟩ := hcnt id doc hdoc
      constructor
      · intro w
        rw [add_document_name_index]
        by_cases h0 : countOcc w (tokensOf d.name) = 0
        · rw [if_pos h0]; exact hw_old w
        · rw [if_neg h0, Option.getD_some, countOcc_append,
              countOcc_replicate_ne id d.node_id _ hid, Nat.add_zero]
          exact hw_old w
      · intro a
        rw [add_document_account_index]
        by_cases ha : a = d.account_id
        · rw [if_pos ha, Option.getD_some, countOcc_append]
          have hone : countOcc id [d.node_id] = 0 := by
            have hid2 : d.node_id ≠ id := fun h => hid h.symm
            simp [countOcc, hid2]
          rw [hone, Nat.add_zero]
          rw [ha]
          exact ha_old d.account_id
        · rw [if_neg ha]; exact ha_old a
  · intro w l hl
    rw [add_document_name_index] at hl
    by_cases h0 : countOcc w (tokensOf d.name) = 0
    · rw [if_pos h0] at hl
      obtain ⟨hne, hmem⟩ := hns w l hl
      refine ⟨hne, fun id hid => ?_⟩
      rw [add_document_documents]
      by_cases h : id = d.node_id
      · rw [if_pos h]; rfl
      · rw [if_neg h]; exact hmem id hid
    · rw [if_neg h0] at hl
      injection hl with hl2
      subst hl2
      refine ⟨?_, ?_⟩
      · intro hcontra
        rcases List.append_eq_nil.mp hcontra with ⟨_, hrep⟩
        rw [List.replicate_eq_nil_iff] at hrep
        exact h0 hrep
      · intro id hid
        rcases List.mem_append.mp hid with hL | hR
        · cases hw : s.name_index w with
          | none => rw [hw] at hL; cases hL
          | some l0 =>
              rw [hw, Option.getD_some] at hL
              have hsome := (hns w l0 hw).2 id hL
              rw [add_document_documents]
              by_cases h : id = d.node_id
              · rw [if_pos h]; rfl
              · rw [if_neg h]; exact hsome
        · have hid2 : id = d.node_id := List.eq_of_mem_replicate hR
          rw [add_document_documents, if_pos hid2]; rfl
  · intro a l hl
    rw [add_document_account_index] at hl
    by_cases ha : a = d.account_id
    · rw [if_pos ha] at hl
      injection hl with hl2
      subst hl2
      refine ⟨?_, ?_⟩
      · intro hcontra
        rcases List.append_eq_nil.mp hcontra with ⟨_, hx⟩
        cases hx
      · intro id hid
        rcases List.mem_append.mp hid with hL | hR
        · cases hw : s.account_index d.account_id with
          | none => rw [hw] at hL; cases hL
          | some l0 =>
              rw [hw, Option.getD_some] at hL
              have hsome := (has d.account_id l0 hw).2 id hL
              rw [add_document_documents]
              by_cases h : id = d.node_id
              · rw [if_pos h]; rfl
              · rw [if_neg h]; exact hsome
        · have hid2 : id = d.node_id := List.mem_singleton.mp hR
          rw [add_document_documents, if_pos hid2]; rfl
    · rw [if_neg ha] at hl
      obtain ⟨hne, hmem⟩ := has a l hl
      refine ⟨hne, fun id hid => ?_⟩
      rw [add_document_documents]
      by_cases h : id = d.node_id
      · rw [if_pos h]; rfl
      · rw [if_neg h]; exact hmem id hid

/-- Removing any document preserves the posting invariant. -/
theorem postingInv_remove (s : SearchIndex) (nodeId : String)
    (hInv : PostingInv s) : PostingInv (s.remove_document nodeId).1 := by
  obtain ⟨hcnt, hns, has⟩ := hInv
  cases hlook : s.documents nodeId with
  | none =>
      have hsame : (s.remove_document nodeId).1 = s := by
        rw [SearchIndex.remove_document, hlook]
      rw [hsame]
      exact ⟨hcnt, hns, has⟩
  | some doc0 =>
      have hdocs : ∀ q, (s.remove_document nodeId).1.documents q
          = if q = nodeId then none else s.documents q := by
        intro q
        rw [SearchIndex.remove_document, hlook]
        rfl
      have hnm : ∀ w, (s.remove_document nodeId).1.name_index w
          = if countOcc w (tokensOf doc0.name) = 0 then s.name_index w
            else scrubVal (s.name_index w) nodeId := by
        intro w
        rw [SearchIndex.remove_document, hlook]
        exact foldl_scrubPosting_apply nodeId (tokensOf doc0.name) s.name_index w
      have hac : ∀ a, (s.remove_document nodeId).1.account_index a
          = if a = doc0.account_id
            then scrubVal (s.account_index doc0.account_id) nodeId
            else s.account_index a := by
        intro a
        rw [SearchIndex.remove_document, hlook]
        exact scrubPosting_apply s.account_index doc0.account_id nodeId a
      refine ⟨?_, ?_, ?_⟩
      · intro id doc hdoc
        rw [hdocs] at hdoc
        by_cases hid : id = nodeId
        · rw [if_pos hid] at hdoc; cases hdoc
        · rw [if_neg hid] at hdoc
          obtain ⟨hw_old, ha_old⟩ := hcnt id doc hdoc
          constructor
          · intro w
            rw [hnm]
            by_cases h0 : countOcc w (tokensOf doc0.name) = 0
            · rw [if_pos h0]; exact hw_old w
            · rw [if_neg h0, countOcc_scrubVal _ _ _ hid]
              exact hw_old w
          · intro a
            rw [hac]
            by_cases ha : a = doc0.account_id
            · rw [if_pos ha, countOcc_scrubVal _ _ _ hid, ha]
              exact ha_old doc0.account_id
            · rw [if_neg ha]; exact ha_old a
      · intro w l hl
        rw [hnm] at hl
        by_cases h0 : countOcc w (tokensOf doc0.name) = 0
        · rw [if_pos h0] at hl
          obtain ⟨hne, hmem⟩ := hns w l hl
          have hnotin : nodeId ∉ l := by
            have hz := (hcnt nodeId doc0 hlook).1 w
            rw [hl, Option.getD_some, h0] at hz
            exact (countOcc_eq_zero_iff nodeId l).mp hz
          refine ⟨hne, fun id hid => ?_⟩
          rw [hdocs, if_neg (fun he => hnotin (by rw [← he]; exact hid))]
          exact hmem id hid
        · rw [if_neg h0] at hl
          cases hsw : s.name_index w with
          | none => rw [hsw] at hl; cases hl
          | some l0 =>
              rw [hsw, scrubVal] at hl
              by_cases he : (l0.filter (fun x => x != nodeId)).isEmpty
              · rw [if_pos he] at hl; cases hl
              · rw [if_neg he] at hl
                injection hl with hl2
                subst hl2
                refine ⟨fun hc => he (by rw [hc]; rfl), fun id hid => ?_⟩
                have hmf := List.mem_filter.mp hid
                have hidne : id ≠ nodeId := by simpa using hmf.2
                rw [hdocs, if_neg hidne]
                exact (hns w l0 hsw).2 id hmf.1
      · intro a l hl
        rw [hac] at hl
        by_cases ha : a = doc0.account_id
        · rw [if_pos ha] at hl
          cases hsw : s.account_index doc0.account_id with
          | none => rw [hsw] at hl; cases hl
          | some l0 =>
              rw [hsw, scrubVal] at hl
              by_cases he : (l0.filter (fun x => x != nodeId)).isEmpty
              · rw [if_pos he] at hl; cases hl
              · rw [if_neg he] at hl
                injection hl with hl2
                subst hl2
                refine ⟨fun hc => he (by rw [hc]; rfl), fun id hid => ?_⟩
                have hmf := List.mem_filter.mp hid
                have hidne : id ≠ nodeId := by simpa using hmf.2
                rw [hdocs, if_neg hidne]
                exact (has doc0.account_id l0 hsw).2 id hmf.1
        · rw [if_neg ha] at hl
          obtain ⟨hne, hmem⟩ := has a l hl
          have hnotin : nodeId ∉ l := by
            have hz := (hcnt nodeId doc0 hlook).2 a
            rw [hl, Option.getD_some, if_neg ha] at hz
            exact (countOcc_eq_zero_iff nodeId l).mp hz
          refine ⟨hne, fun id hid => ?_⟩
          rw [hdocs, if_neg (fun he2 => hnotin (by rw [← he2]; exact hid))]
          exact hmem id hid

inductive IndexOp where
  | add (d : SearchDocument)
  | remove (id : String)

def applyOp (s : SearchIndex) : IndexOp → SearchIndex
  | .add d => s.add_document d
  | .remove id => (s.remove_document id).1

def runOps : SearchIndex → List IndexOp → SearchIndex
  | s, [] => s
  | s, op :: rest => runOps (applyOp s op) rest

/-- The side condition under which C7 (amended) holds: every `add` in the
sequence carries a node id not currently in the store (replacement-free
sequences; re-adding an existing id leaves stale postings, see §9 of the
specification). -/
def FreshAdds : SearchIndex → List IndexOp → Prop
  | _, [] => True
  | s, IndexOp.add d :: rest =>
      s.documents d.node_id = none ∧ FreshAdds (s.add_document d) rest
  | s, IndexOp.remove id :: rest => FreshAdds ((s.remove_document id).1) rest

theorem runOps_postingInv : ∀ (ops : List IndexOp) (s : SearchIndex),
    PostingInv s → FreshAdds s ops → PostingInv (runOps s ops) := by
  intro ops
  induction ops with
  | nil => intro s h _; exact h
  | cons op rest ih =>
      intro s h hf
      cases op with
      | add d =>
          obtain ⟨hfresh, hrest⟩ := hf
          exact ih (s.add_document d) (postingInv_add s d h hfresh) hrest
      | remove id =>
          exact ih _ (postingInv_remove s id h) hf

/-- C7 amended: in every index state reached from the empty index by a
sequence of replacement-free `add_document` / `remove_document` calls,
each stored document's node id occurs in the posting list of each word
exactly as many times as that word occurs among the whitespace-split
tokens of its lowercased name (in particular exactly once for each
non-repeated token), and exactly once in its account's posting list. -/
theorem search_index_posting_multiplicity (ops : List IndexOp)
    (hfresh : FreshAdds SearchIndex.empty ops) (id : String) (doc : SearchDocument)
    (hdoc : (runOps SearchIndex.empty ops).documents id = some doc) :
    (∀ w, countOcc id (((runOps SearchIndex.empty ops).name_index w).getD [])
        = countOcc w (tokensOf doc.name)) ∧
    countOcc id (((runOps SearchIndex.empty ops).account_index doc.account_id).getD [])
      = 1 := by
  have h := runOps_postingInv ops SearchIndex.empty postingInv_empty hfresh
  obtain ⟨hcnt, _, _⟩ := h
  obtain ⟨h1, h2⟩ := hcnt id doc hdoc
  refine ⟨h1, ?_⟩
  rw [h2, if_pos rfl]

/-- Witness for the amended C7 theorem on a one-operation history. -/
theorem search_index_posting_multiplicity_witness :
    countOcc "1" (((runOps SearchIndex.empty [IndexOp.add c9Doc]).name_index
        [Char.ofNat 120]).getD []) = countOcc [Char.ofNat 120] (tokensOf c9Doc.name) ∧
    countOcc "1" (((runOps SearchIndex.empty [IndexOp.add c9Doc]).account_index
        c9Doc.account_id).getD []) = 1 :=
  ⟨(search_index_posting_multiplicity [IndexOp.add c9Doc] ⟨rfl, trivial⟩ "1" c9Doc
      rfl).1 [Char.ofNat 120],
   (search_index_posting_multiplicity [IndexOp.add c9Doc] ⟨rfl, trivial⟩ "1" c9Doc
      rfl).2⟩

/-! ## Claim C8: `search_by_account` scoring vs `search_exact` scoring
(`search/index.rs:129-178` and `211-241`)

Scores are `f64` constants and sums of constants in the source; they are
modelled as rationals.  String positions are character offsets. -/

/-- First index at which `pat` occurs as a contiguous subsequence
(`str::find`). -/
def findSub (pat : List Char) : List Char → Option Nat
  | [] => if pat.isEmpty then some 0 else none
  | c :: cs =>
      if pat.isPrefixOf (c :: cs) then some 0
      else (findSub pat cs).map (fun n => n + 1)

/-- `str::contains`. -/
def containsSub (pat l : List Char) : Bool := (findSub pat l).isSome

/-- The score assigned by `search_exact` to a document whose lowercased
name contains the lowercased query (`search/index.rs:135-161`). -/
def scoreExact (nameLower queryLower : List Char) : ℚ :=
  if nameLower = queryLower then 1
  else if queryLower.isPrefixOf nameLower then 0.9
  else
    let matchPosition := (findSub queryLower nameLower).getD 0
    let positionBonus : ℚ := if matchPosition = 0 then 0.1 else 0
    let wordBoundaryBonus : ℚ :=
      if matchPosition = 0 ∨ nameLower.get? (matchPosition - 1) = some ' ' then 0.05
      else 0
    0.7 + positionBonus + wordBoundaryBonus

/-- The score assigned by `search_by_account` (`search/index.rs:219-225`):
the partial-match branch is a bare 0.7. -/
def scoreByAccount (nameLower queryLower : List Char) : ℚ :=
  if nameLower = queryLower then 1
  else if queryLower.isPrefixOf nameLower then 0.9
  else 0.7

/-- Per-document outcome of `search_exact`: a score when the lowercased
name contains the query. -/
def searchExactEntry (doc : SearchDocument) (queryLower : List Char) : Option ℚ :=
  if containsSub queryLower (lowerChars doc.name) then
    some (scoreExact (lowerChars doc.name) queryLower)
  else none

/-- Per-document outcome of `search_by_account` for a document of the
account's posting list. -/
def searchByAccountEntry (doc : SearchDocument) (queryLower : List Char) : Option ℚ :=
  if containsSub queryLower (lowerChars doc.name) then
    some (scoreByAccount (lowerChars doc.name) queryLower)
  else none

def c8Doc : SearchDocument :=
  { node_id := "2", account_id := "acc", provider := "p", email := "e",
    name := "x report", is_folder := false, parent_id := none }

/-- Counterexample to C8 as stated: on the name "x report" and query
"report" (a word-boundary match), the exact-search rules give
0.7 + 0 + 0.05 = 0.75, but `search_by_account` assigns a flat 0.7 — it
never adds the position or word-boundary bonuses. -/
theorem search_by_account_drops_bonuses :
    searchByAccountEntry c8Doc ("report".data) = some 0.7 ∧
    searchExactEntry c8Doc ("report".data) = some 0.75 ∧
    (0.7 : ℚ) ≠ 0.75 := by
  have hlc : lowerChars c8Doc.name = "x report".data := by decide
  have hcontains : containsSub ("report".data) ("x report".data) = true := by decide
  have hfind : (findSub ("report".data) ("x report".data)).getD 0 = 2 := by decide
  refine ⟨?_, ?_, by norm_num⟩
  · rw [searchByAccountEntry, hlc, if_pos hcontains]
    rw [scoreByAccount, if_neg (by decide), if_neg (by decide)]
  · rw [searchExactEntry, hlc, if_pos hcontains]
    rw [scoreExact, if_neg (by decide), if_neg (by decide)]
    simp only [hfind]
    norm_num

/-- C8 amended: `search_by_account` agrees with `search_exact` on the
equality (1.0) and starts-with (0.9) branches, but scores every other
containing match a flat 0.7, while `search_exact` adds the position bonus
(0.1 iff the match is at offset 0) and the word-boundary bonus (0.05 iff
the match is at offset 0 or right after a space). -/
theorem search_by_account_score_rule (n q : List Char) :
    (n = q → scoreByAccount n q = scoreExact n q) ∧
    (n ≠ q → q.isPrefixOf n = true → scoreByAccount n q = scoreExact n q) ∧
    (n ≠ q → ¬q.isPrefixOf n = true →
      scoreByAccount n q = 0.7 ∧
      scoreExact n q = 0.7 +
        (if (findSub q n).getD 0 = 0 then (0.1 : ℚ) else 0) +
        (if (findSub q n).getD 0 = 0 ∨ n.get? ((findSub q n).getD 0 - 1) = some ' '
         then (0.05 : ℚ) else 0)) := by
  refine ⟨?_, ?_, ?_⟩
  · intro h
    rw [scoreByAccount, if_pos h, scoreExact, if_pos h]
  · intro h hp
    rw [scoreByAccount, if_neg h, if_pos hp, scoreExact, if_neg h, if_pos hp]
  · intro h hp
    constructor
    · rw [scoreByAccount, if_neg h, if_neg hp]
    · rw [scoreExact, if_neg h, if_neg hp]

/-- Witness for the amended C8 theorem at the counterexample input. -/
theorem search_by_account_score_rule_witness :
    scoreByAccount ("x report".data) ("report".data) = 0.7 ∧
    scoreExact ("x report".data) ("report".data) = 0.7 +
      (if (findSub ("report".data) ("x report".data)).getD 0 = 0 then (0.1 : ℚ) else 0) +
      (if (findSub ("report".data) ("x report".data)).getD 0 = 0 ∨
          ("x report".data).get? ((findSub ("report".data) ("x report".data)).getD 0 - 1)
            = some ' '
       then (0.05 : ℚ) else 0) :=
  (search_by_account_score_rule ("x report".data) ("report".data)).2.2
    (by decide) (by decide)

/-! ## Claim C10: `jaro_winkler_similarity` (`search/fuzzy.rs:47-124`)

`usize` subtraction is overflow-checked in the model: `checkedSub` yields
`none` where a debug build panics on underflow (release builds wrap, and
then overflow again on `i + match_distance + 1`).  `none` therefore marks
the non-returning executions. -/

def checkedSub (a b : Nat) : Option Nat := if b ≤ a then some (a - b) else none

/-- The inner `for j in start..end` scan: the first not-yet-matched index
holding the wanted character (`fuzzy.rs:77-85`). -/
def findMatchJ (c : Char) (s2 : List Char) (s2m : List Bool) : Nat → Nat → Option Nat
  | _, 0 => none
  | j, cnt + 1 =>
      if s2m.getD j false = false ∧ s2.getD j ' ' = c then some j
      else findMatchJ c s2 s2m (j + 1) cnt

/-- The match-finding pass (`fuzzy.rs:73-86`): `start = i - md` saturates
at 0 exactly like the source's `if i > match_distance` guard. -/
def jaroMatchLoop (s1 s2 : List Char) (md : Nat) :
    List Nat → List Bool → List Bool → Nat → List Bool × List Bool × Nat
  | [], s1m, s2m, m => (s1m, s2m, m)
  | i :: rest, s1m, s2m, m =>
      let start := i - md
      let stop := min (i + md + 1) s2.length
      match findMatchJ (s1.getD i ' ') s2 s2m start (stop - start) with
      | some j =>
          jaroMatchLoop s1 s2 md rest (s1m.set i true) (s2m.set j true) (m + 1)
      | none => jaroMatchLoop s1 s2 md rest s1m s2m m

/-- `while !s2_matches[k] { k += 1 }` (`fuzzy.rs:98-100`): running past
the end of the vector is an index panic, modelled as `none`. -/
def firstTrueFrom (bs : List Bool) : Nat → Nat → Option Nat
  | _, 0 => none
  | k, fuel + 1 =>
      if bs.length ≤ k then none
      else if bs.getD k false then some k
      else firstTrueFrom bs (k + 1) fuel

/-- The transposition-counting pass (`fuzzy.rs:93-105`). -/
def jaroTransLoop (s1 s2 : List Char) (s1m s2m : List Bool) :
    List Nat → Nat → Nat → Option (Nat × Nat)
  | [], k, t => some (k, t)
  | i :: rest, k, t =>
      if s1m.getD i false = false then jaroTransLoop s1 s2 s1m s2m rest k t
      else
        match firstTrueFrom s2m k (s2m.length + 1 - k) with
        | none => none
        | some k2 =>
            if s1.getD i ' ' ≠ s2.getD k2 ' ' then
              jaroTransLoop s1 s2 s1m s2m rest (k2 + 1) (t + 1)
            else jaroTransLoop s1 s2 s1m s2m rest (k2 + 1) t

/-- Common prefix length capped at 4 (`fuzzy.rs:113-120`). -/
def commonPrefixCount : List Char → List Char → Nat → Nat
  | _, _, 0 => 0
  | [], _, _ + 1 => 0
  | _ :: _, [], _ + 1 => 0
  | a :: as, b :: bs, n + 1 =>
      if a = b then commonPrefixCount as bs n + 1 else 0

/-- `jaro_winkler_similarity` (`fuzzy.rs:47`): equal strings score 1,
empty strings 0; the match window is `max(len)/2 - 1` in `usize`
(checked); then matches, transpositions, the Jaro mean and the Winkler
prefix boost.  `f64` arithmetic is modelled over the rationals. -/
def jaro_winkler_similarity (s1 s2 : List Char) : Option ℚ :=
  if s1 = s2 then some 1
  else if s1.length = 0 ∨ s2.length = 0 then some 0
  else
    match checkedSub (max s1.length s2.length / 2) 1 with
    | none => none
    | some matchDistance =>
        match jaroMatchLoop s1 s2 matchDistance (List.range s1.length)
            (List.replicate s1.length false) (List.replicate s2.length false) 0 with
        | (s1m, s2m, matchCount) =>
            if matchCount = 0 then some 0
            else
              match jaroTransLoop s1 s2 s1m s2m (List.range s1.length) 0 0 with
              | none => none
              | some (_, transpositions) =>
                  let jaro : ℚ := ((matchCount : ℚ) / (s1.length : ℚ)
                    + (matchCount : ℚ) / (s2.length : ℚ)
                    + ((matchCount : ℚ) - (transpositions : ℚ) / 2) / (matchCount : ℚ)) / 3
                  some (jaro + (commonPrefixCount s1 s2 4 : ℚ) * 0.1 * (1 - jaro))

/-- Claim C10 fails on the code (code bug): for the distinct length-1
inputs "a" and "b" the match-window computation `max(1,1)/2 - 1`
underflows in `usize` — an arithmetic-overflow panic in checked builds —
so `jaro_winkler_similarity` is not total. -/
theorem jaro_winkler_underflows_on_length_one_inputs :
    jaro_winkler_similarity [Char.ofNat 97] [Char.ofNat 98] = none ∧
    checkedSub (max 1 1 / 2) 1 = none := by
  decide

end CloudNexus
